import Mathlib

/-!
Verification of the reconciliation engine of `project-settings-sync`.

The engine lives in `src/lib/merge.ts` (three-way env-file merge,
conflict resolution) and `src/lib/manifest.ts` (manifest fingerprint).
JavaScript `Map<string, string>` values are embedded as association
lists (`EnvMap`) whose operations replicate `Map.get` / `Map.set` /
`Map.delete` semantics (insertion order preserved, `set` overwrites in
place), and `string | undefined` as `Option String`.
-/

namespace SettingsSync

/-- `Map<string, string>` as an association list in insertion order. -/
abbrev EnvMap := List (String × String)

/-- `map.get(k)` — value of the first entry with key `k`, absent otherwise. -/
def mapGet (m : EnvMap) (k : String) : Option String :=
  (m.find? (fun p => p.1 == k)).map (·.2)

/-- `map.has(k)`. -/
def mapHas (m : EnvMap) (k : String) : Bool :=
  (m.find? (fun p => p.1 == k)).isSome

/-- `map.set(k, v)` — overwrite in place when present, append otherwise. -/
def mapSet (m : EnvMap) (k v : String) : EnvMap :=
  if mapHas m k then m.map (fun p => if p.1 == k then (k, v) else p)
  else m ++ [(k, v)]

/-- `map.delete(k)`. -/
def mapDelete (m : EnvMap) (k : String) : EnvMap :=
  m.filter (fun p => p.1 != k)

/-- `ConflictType` from `src/types/index.ts`. -/
inductive ConflictType where
  | divergent_edit
  | edit_vs_delete
  | new_key_collision
deriving DecidableEq, Repr

/-- `AutoMergeAction` from `src/types/index.ts`. -/
inductive AutoMergeAction where
  | added_from_local
  | added_from_remote
  | deleted
  | updated_from_local
  | updated_from_remote
deriving DecidableEq, Repr

/-- `KeyMergeResult` from `src/lib/merge.ts`. -/
inductive KeyMergeResult where
  | unchanged (value : Option String)
  | auto_merged (action : AutoMergeAction) (value : Option String)
  | conflict (conflictType : ConflictType)
deriving DecidableEq, Repr

/-- `mergeKey` from `src/lib/merge.ts`: three-way merge of one key. -/
def mergeKey (key : String) (baseVal localVal remoteVal : Option String) :
    KeyMergeResult :=
  let localExists := localVal.isSome
  let remoteExists := remoteVal.isSome
  let baseExists := baseVal.isSome
  if !baseExists then
    if localExists && remoteExists then
      if localVal == remoteVal then
        KeyMergeResult.unchanged localVal
      else
        KeyMergeResult.conflict ConflictType.new_key_collision
    else if localExists && !remoteExists then
      KeyMergeResult.auto_merged AutoMergeAction.added_from_local localVal
    else if !localExists && remoteExists then
      KeyMergeResult.auto_merged AutoMergeAction.added_from_remote remoteVal
    else
      KeyMergeResult.unchanged none
  else
    let localChanged := localVal != baseVal
    let remoteChanged := remoteVal != baseVal
    let localDeleted := !localExists
    let remoteDeleted := !remoteExists
    if !localChanged && !remoteChanged && !localDeleted && !remoteDeleted then
      KeyMergeResult.unchanged baseVal
    else if localDeleted && remoteDeleted then
      KeyMergeResult.auto_merged AutoMergeAction.deleted none
    else if localDeleted && !remoteChanged then
      KeyMergeResult.auto_merged AutoMergeAction.deleted none
    else if remoteDeleted && !localChanged then
      KeyMergeResult.auto_merged AutoMergeAction.deleted none
    else if localDeleted && remoteChanged then
      KeyMergeResult.conflict ConflictType.edit_vs_delete
    else if remoteDeleted && localChanged then
      KeyMergeResult.conflict ConflictType.edit_vs_delete
    else if localChanged && !remoteChanged then
      KeyMergeResult.auto_merged AutoMergeAction.updated_from_local localVal
    else if !localChanged && remoteChanged then
      KeyMergeResult.auto_merged AutoMergeAction.updated_from_remote remoteVal
    else if localVal == remoteVal then
      KeyMergeResult.unchanged localVal
    else
      KeyMergeResult.conflict ConflictType.divergent_edit

/-- `ConflictEntry` from `src/types/index.ts`. -/
structure ConflictEntry where
  key : String
  conflictType : ConflictType
  baseValue : Option String
  localValue : Option String
  remoteValue : Option String
deriving DecidableEq, Repr

/-- `AutoMergeEntry` from `src/types/index.ts`. -/
structure AutoMergeEntry where
  key : String
  action : AutoMergeAction
  value : Option String
deriving DecidableEq, Repr

/-- The `status` field of `FileMergeResult`. -/
inductive MergeStatus where
  | clean
  | auto_merged
  | conflicted
deriving DecidableEq, Repr

/-- `FileMergeResult` from `src/types/index.ts` (the fields the keyed merge
produces; `kind`/`mergedContent` belong to the opaque variant). -/
structure FileMergeResult where
  fileName : String
  status : MergeStatus
  merged : EnvMap
  conflicts : List ConflictEntry
  autoMerged : List AutoMergeEntry
deriving DecidableEq, Repr

/-- Key union `new Set([...base?.keys(), ...local.keys(), ...remote.keys()])`:
first-occurrence order, duplicates dropped. -/
def insertKey (ks : List String) (k : String) : List String :=
  if k ∈ ks then ks else ks ++ [k]

/-- The ordered key union of the three versions. -/
def allKeysOf (base : Option EnvMap) (localMap remoteMap : EnvMap) :
    List String :=
  (((base.map (fun m => m.map (·.1))).getD []) ++ localMap.map (·.1) ++
    remoteMap.map (·.1)).foldl insertKey []

/-- Loop body of `threeWayMergeEnvFile`: process one key, extending the
accumulated `(merged, conflicts, autoMerged)`. -/
def mergeStep (base : Option EnvMap) (localMap remoteMap : EnvMap)
    (acc : EnvMap × List ConflictEntry × List AutoMergeEntry) (key : String) :
    EnvMap × List ConflictEntry × List AutoMergeEntry :=
  let merged := acc.1
  let conflicts := acc.2.1
  let autoMerged := acc.2.2
  let baseVal := base.bind (fun m => mapGet m key)
  let localVal := mapGet localMap key
  let remoteVal := mapGet remoteMap key
  match mergeKey key baseVal localVal remoteVal with
  | KeyMergeResult.conflict ct =>
      let merged := match localVal with
        | some v => mapSet merged key v
        | none => merged
      (merged,
       conflicts ++ [{ key := key, conflictType := ct, baseValue := baseVal,
                       localValue := localVal, remoteValue := remoteVal }],
       autoMerged)
  | KeyMergeResult.auto_merged action value =>
      let merged := match value with
        | some v => mapSet merged key v
        | none => merged
      (merged, conflicts,
       autoMerged ++ [{ key := key, action := action, value := value }])
  | KeyMergeResult.unchanged value =>
      let merged := match value with
        | some v => mapSet merged key v
        | none => merged
      (merged, conflicts, autoMerged)

/-- `threeWayMergeEnvFile` from `src/lib/merge.ts`. -/
def threeWayMergeEnvFile (fileName : String) (base : Option EnvMap)
    (localMap remoteMap : EnvMap) : FileMergeResult :=
  let keys := allKeysOf base localMap remoteMap
  let res := keys.foldl (mergeStep base localMap remoteMap) ([], [], [])
  { fileName := fileName
    status :=
      if res.2.1.length > 0 then MergeStatus.conflicted
      else if res.2.2.length > 0 then MergeStatus.auto_merged
      else MergeStatus.clean
    merged := res.1
    conflicts := res.2.1
    autoMerged := res.2.2 }

/-- `ResolutionChoice` from `src/types/index.ts`
(`local | remote | base | manual | skip`; `local`/`remote`/`base` are
spelled `pickLocal`/`pickRemote`/`pickBase` to avoid Lean keywords). -/
inductive ResolutionChoice where
  | pickLocal
  | pickRemote
  | pickBase
  | manual
  | skip
deriving DecidableEq, Repr

/-- `ConflictResolution` from `src/types/index.ts`. -/
structure ConflictResolution where
  key : String
  choice : ResolutionChoice
  manualValue : Option String
deriving DecidableEq, Repr

/-- Loop body of `applyResolutions`: process one resolution against the
current result map. -/
def applyResolutionStep (mergeResult : FileMergeResult) (result : EnvMap)
    (resolution : ConflictResolution) : EnvMap :=
  match mergeResult.conflicts.find? (fun c => c.key == resolution.key) with
  | none => result
  | some conflict =>
    match resolution.choice with
    | ResolutionChoice.pickLocal =>
        match conflict.localValue with
        | some v => mapSet result resolution.key v
        | none => mapDelete result resolution.key
    | ResolutionChoice.pickRemote =>
        match conflict.remoteValue with
        | some v => mapSet result resolution.key v
        | none => mapDelete result resolution.key
    | ResolutionChoice.pickBase =>
        match conflict.baseValue with
        | some v => mapSet result resolution.key v
        | none => mapDelete result resolution.key
    | ResolutionChoice.manual =>
        match resolution.manualValue with
        | some v => mapSet result resolution.key v
        | none => mapDelete result resolution.key
    | ResolutionChoice.skip => result

/-- `applyResolutions` from `src/lib/merge.ts`: fold the resolutions over a
copy of `mergeResult.merged`. -/
def applyResolutions (mergeResult : FileMergeResult)
    (resolutions : List ConflictResolution) : EnvMap :=
  resolutions.foldl (applyResolutionStep mergeResult) mergeResult.merged

/-- `allConflictsResolved` from `src/lib/merge.ts`. -/
def allConflictsResolved (mergeResult : FileMergeResult)
    (resolutions : List ConflictResolution) : Bool :=
  let resolvedKeys := resolutions.map (·.key)
  mergeResult.conflicts.all (fun conflict =>
    resolvedKeys.contains conflict.key &&
    ((resolutions.find? (fun r => r.key == conflict.key)).map (·.choice)
      != some ResolutionChoice.skip))

/-- The `"local" | "remote"` strategy argument of `resolveAllConflicts`. -/
inductive Strategy where
  | stratLocal
  | stratRemote
deriving DecidableEq, Repr

/-- `resolveAllConflicts` from `src/lib/merge.ts`: one resolution per open
conflict, uniformly using the chosen side. -/
def resolveAllConflicts (mergeResult : FileMergeResult)
    (strategy : Strategy) : List ConflictResolution :=
  mergeResult.conflicts.map (fun conflict =>
    { key := conflict.key
      choice := match strategy with
        | Strategy.stratLocal => ResolutionChoice.pickLocal
        | Strategy.stratRemote => ResolutionChoice.pickRemote
      manualValue := none })

/-- `FileEntry` from `src/types/index.ts` (the `source` field is omitted:
optional provenance metadata never read by the fingerprint). -/
structure FileEntry where
  name : String
  hash : String
  size : Nat
  updatedAt : String
deriving DecidableEq, Repr

/-- `ProjectManifest` from `src/types/index.ts`. -/
structure ProjectManifest where
  version : Nat
  projectName : String
  files : List FileEntry
deriving DecidableEq, Repr

/-- JSON string-body escaping (`JSON.stringify` escapes quotes and
backslashes; other escapes are irrelevant to the claims proved here). -/
def jsonEscape (s : String) : String :=
  String.join (s.data.map (fun c =>
    if c = '"' then "\\\"" else if c = '\\' then "\\\\"
    else String.singleton c))

/-- A JSON string literal. -/
def jsonStr (s : String) : String := "\"" ++ jsonEscape s ++ "\""

/-- JSON rendering of one `(name, hash)` projection entry. -/
def fileJson (p : String × String) : String :=
  "\x7b" ++ jsonStr "name" ++ ":" ++ jsonStr p.1 ++ "," ++
    jsonStr "hash" ++ ":" ++ jsonStr p.2 ++ "\x7d"

/-- `files.sort((a, b) => a.name.localeCompare(b.name))`: a stable sort by
name (modelled with lexicographic string order). -/
def sortByName (ps : List (String × String)) : List (String × String) :=
  List.insertionSort (fun a b => a.1 ≤ b.1) ps

/-- `getManifestFingerprint` from `src/lib/manifest.ts`:
`JSON.stringify` of the version, project name, and the name-sorted
`(name, hash)` projection of the files. -/
def getManifestFingerprint (manifest : ProjectManifest) : String :=
  let files := sortByName (manifest.files.map (fun f => (f.name, f.hash)))
  "\x7b" ++ jsonStr "version" ++ ":" ++ toString manifest.version ++ "," ++
    jsonStr "projectName" ++ ":" ++ jsonStr manifest.projectName ++ "," ++
    jsonStr "files" ++ ":[" ++
    String.intercalate "," (files.map fileJson) ++ "]\x7d"

/-- Modelled from the spec, section 4.1: the Key Reconciliation Rule's
decision table, written independently of `mergeKey`, bullet for bullet in
the spec's stated precedence order. `none` is returned exactly on the one
combination the table does not prescribe (no base, both sides absent),
which is unreachable for keys drawn from the key union. -/
def specResolve (key : String) (baseVal localVal remoteVal : Option String) :
    Option KeyMergeResult :=
  match baseVal with
  | none =>
    match localVal, remoteVal with
    | some l, some r =>
        if l = r then some (KeyMergeResult.unchanged (some l))
        else some (KeyMergeResult.conflict ConflictType.new_key_collision)
    | some l, none =>
        some (KeyMergeResult.auto_merged AutoMergeAction.added_from_local
          (some l))
    | none, some r =>
        some (KeyMergeResult.auto_merged AutoMergeAction.added_from_remote
          (some r))
    | none, none => none
  | some b =>
    let localChanged := localVal != some b
    let remoteChanged := remoteVal != some b
    let localDeleted := localVal.isNone
    let remoteDeleted := remoteVal.isNone
    if !localChanged && !remoteChanged && !localDeleted && !remoteDeleted then
      some (KeyMergeResult.unchanged (some b))
    else if localDeleted && remoteDeleted then
      some (KeyMergeResult.auto_merged AutoMergeAction.deleted none)
    else if localDeleted && !remoteChanged then
      some (KeyMergeResult.auto_merged AutoMergeAction.deleted none)
    else if remoteDeleted && !localChanged then
      some (KeyMergeResult.auto_merged AutoMergeAction.deleted none)
    else if localDeleted && remoteChanged && !remoteDeleted then
      some (KeyMergeResult.conflict ConflictType.edit_vs_delete)
    else if remoteDeleted && localChanged && !localDeleted then
      some (KeyMergeResult.conflict ConflictType.edit_vs_delete)
    else if localChanged && !remoteChanged then
      some (KeyMergeResult.auto_merged AutoMergeAction.updated_from_local
        localVal)
    else if !localChanged && remoteChanged then
      some (KeyMergeResult.auto_merged AutoMergeAction.updated_from_remote
        remoteVal)
    else if localVal == remoteVal then
      some (KeyMergeResult.unchanged localVal)
    else
      some (KeyMergeResult.conflict ConflictType.divergent_edit)

/-- Whether a key outcome is a conflict. -/
def isConflict : KeyMergeResult → Bool
  | KeyMergeResult.conflict _ => true
  | _ => false

/-- `applyResolutions` with the JavaScript object state threaded
explicitly: the pair carries the fresh `result` map (started as a copy of
`mergeResult.merged` by `new Map(...)`) together with the `mergeResult`
object as each loop iteration leaves it. The loop body only reads
`mergeResult` (via `find` on its `conflicts`) and writes the fresh map, so
the translation of each iteration passes the object through. -/
def applyResolutionsMut (mergeResult : FileMergeResult)
    (resolutions : List ConflictResolution) : EnvMap × FileMergeResult :=
  resolutions.foldl
    (fun st resolution => (applyResolutionStep st.2 st.1 resolution, st.2))
    (mergeResult.merged, mergeResult)

/-- The outcome `threeWayMergeEnvFile` computes for one key of the union. -/
def keyOutcome (base : Option EnvMap) (localMap remoteMap : EnvMap)
    (key : String) : KeyMergeResult :=
  mergeKey key (base.bind (fun m => mapGet m key)) (mapGet localMap key)
    (mapGet remoteMap key)

/-- The `ConflictEntry` the driver records for a key, when its outcome is a
conflict. -/
def conflictEntryAt (base : Option EnvMap) (localMap remoteMap : EnvMap)
    (key : String) : Option ConflictEntry :=
  match keyOutcome base localMap remoteMap key with
  | KeyMergeResult.conflict ct =>
      some { key := key, conflictType := ct,
             baseValue := base.bind (fun m => mapGet m key),
             localValue := mapGet localMap key,
             remoteValue := mapGet remoteMap key }
  | _ => none

/-- The `AutoMergeEntry` the driver records for a key, when its outcome is
an auto-merge. -/
def autoEntryAt (base : Option EnvMap) (localMap remoteMap : EnvMap)
    (key : String) : Option AutoMergeEntry :=
  match keyOutcome base localMap remoteMap key with
  | KeyMergeResult.auto_merged a v =>
      some { key := key, action := a, value := v }
  | _ => none

/-- The value the driver writes into `merged` for a key (`none` when it
leaves the key unset). -/
def writtenValueAt (base : Option EnvMap) (localMap remoteMap : EnvMap)
    (key : String) : Option String :=
  match keyOutcome base localMap remoteMap key with
  | KeyMergeResult.conflict _ => mapGet localMap key
  | KeyMergeResult.auto_merged _ v => v
  | KeyMergeResult.unchanged v => v

/-! ## Claims about the Key Reconciliation Rule -/

/-- C1: on every reachable combination of base/local/remote values (at least
one version has the key, as holds for every key drawn from the key union),
`mergeKey` returns exactly the outcome the spec's section 4.1 decision table
prescribes: `specResolve` — a bullet-for-bullet rendering of that table —
prescribes precisely the code's result. -/
theorem mergeKey_matches_spec_table (key : String) (b l r : Option String)
    (h : b.isSome ∨ l.isSome ∨ r.isSome) :
    specResolve key b l r = some (mergeKey key b l r) := by
  cases b <;> cases l <;> cases r <;>
    simp_all [mergeKey, specResolve] <;> split_ifs <;> simp_all

/-- Witness for C1: a concrete reachable input (base `"o"`, local `"l"`,
remote deleted) where the table prescribes the code's `edit_vs_delete`. -/
theorem mergeKey_matches_spec_table_witness :
    ((some "o" : Option String).isSome ∨ (some "l" : Option String).isSome ∨
      (none : Option String).isSome) ∧
    specResolve "K" (some "o") (some "l") none =
      some (mergeKey "K" (some "o") (some "l") none) :=
  ⟨Or.inl rfl, mergeKey_matches_spec_table "K" (some "o") (some "l") none
    (Or.inl rfl)⟩

/-- C6 (convergence): whenever local and remote agree on a key (including
both absent), `mergeKey` never reports a conflict, whatever the base. -/
theorem mergeKey_convergence (key : String) (b v : Option String) :
    isConflict (mergeKey key b v v) = false := by
  cases b <;> cases v <;>
    simp_all [mergeKey, isConflict] <;> split_ifs <;> simp_all

/-- C7 (totality): `mergeKey` is a total function and its result is always
one of the three outcome kinds — unchanged, auto-merged, or conflict. -/
theorem mergeKey_total (key : String) (b l r : Option String) :
    (∃ v, mergeKey key b l r = KeyMergeResult.unchanged v) ∨
    (∃ a v, mergeKey key b l r = KeyMergeResult.auto_merged a v) ∨
    (∃ ct, mergeKey key b l r = KeyMergeResult.conflict ct) := by
  cases h : mergeKey key b l r with
  | unchanged v => exact Or.inl ⟨v, rfl⟩
  | auto_merged a v => exact Or.inr (Or.inl ⟨a, v, rfl⟩)
  | conflict ct => exact Or.inr (Or.inr ⟨ct, rfl⟩)

/-! ## Status trichotomy (C4) -/

/-- C4: every `FileMergeResult` returned by `threeWayMergeEnvFile` satisfies
the status trichotomy: `conflicted` iff `conflicts` is non-empty,
`auto_merged` iff `conflicts` is empty and `autoMerged` non-empty, and
`clean` iff both are empty. -/
theorem threeWayMerge_status_trichotomy (fileName : String)
    (base : Option EnvMap) (localMap remoteMap : EnvMap) :
    ((threeWayMergeEnvFile fileName base localMap remoteMap).status =
        MergeStatus.conflicted ↔
      (threeWayMergeEnvFile fileName base localMap remoteMap).conflicts
        ≠ []) ∧
    ((threeWayMergeEnvFile fileName base localMap remoteMap).status =
        MergeStatus.auto_merged ↔
      (threeWayMergeEnvFile fileName base localMap remoteMap).conflicts
        = [] ∧
      (threeWayMergeEnvFile fileName base localMap remoteMap).autoMerged
        ≠ []) ∧
    ((threeWayMergeEnvFile fileName base localMap remoteMap).status =
        MergeStatus.clean ↔
      (threeWayMergeEnvFile fileName base localMap remoteMap).conflicts
        = [] ∧
      (threeWayMergeEnvFile fileName base localMap remoteMap).autoMerged
        = []) := by
  simp only [threeWayMergeEnvFile]
  split_ifs with h1 h2 <;>
    simp_all [List.length_pos, List.length_eq_zero]

/-! ## allConflictsResolved (C8) -/

/-- C8: `allConflictsResolved` returns `true` only if every conflict has a
matching resolution (same key) whose choice is not `skip` — also when the
resolution list holds several entries for one key, since the entry the code
inspects is itself such a matching resolution. -/
theorem allConflictsResolved_only_if (mergeResult : FileMergeResult)
    (resolutions : List ConflictResolution)
    (h : allConflictsResolved mergeResult resolutions = true) :
    ∀ c ∈ mergeResult.conflicts, ∃ res ∈ resolutions,
      res.key = c.key ∧ res.choice ≠ ResolutionChoice.skip := by
  intro c hc
  have hall := List.all_eq_true.mp h c hc
  simp only [Bool.and_eq_true] at hall
  obtain ⟨hmem, hskip⟩ := hall
  have hmem' : c.key ∈ resolutions.map (·.key) := by simpa using hmem
  obtain ⟨res, hres, hkey⟩ := List.mem_map.mp hmem'
  have hsome : (resolutions.find? (fun r => r.key == c.key)).isSome := by
    rw [List.find?_isSome]
    exact ⟨res, hres, by simp [hkey]⟩
  obtain ⟨res0, hres0⟩ := Option.isSome_iff_exists.mp hsome
  refine ⟨res0, List.mem_of_find?_eq_some hres0, ?_, ?_⟩
  · have hp := List.find?_some hres0
    simpa using hp
  · intro hch
    rw [hres0] at hskip
    simp [hch] at hskip

/-- Witness for C8: one conflicted key with two resolutions for it (the
first non-skip); `allConflictsResolved` is `true` and the matching non-skip
resolution exists. -/
theorem allConflictsResolved_only_if_witness :
    allConflictsResolved
      (threeWayMergeEnvFile "f.env" (some [("K", "o")]) [("K", "l")]
        [("K", "r")])
      ([{ key := "K", choice := ResolutionChoice.pickLocal,
          manualValue := none },
        { key := "K", choice := ResolutionChoice.skip,
          manualValue := none }] : List ConflictResolution)
      = true ∧
    ∀ c ∈ (threeWayMergeEnvFile "f.env" (some [("K", "o")]) [("K", "l")]
        [("K", "r")]).conflicts,
      ∃ res ∈ ([{ key := "K", choice := ResolutionChoice.pickLocal,
                  manualValue := none },
                 { key := "K", choice := ResolutionChoice.skip,
                   manualValue := none }] : List ConflictResolution),
        res.key = c.key ∧ res.choice ≠ ResolutionChoice.skip :=
  ⟨by decide,
   allConflictsResolved_only_if _ _ (by decide)⟩

/-! ## Manual resolution with absent manualValue (C2) -/

/-- Counterexample to C2: `applyResolutions` does not reject a `manual`
resolution whose `manualValue` is absent. On a divergent-edit conflict for
`"KEY"` (merged preview `KEY = "local"`), the resolution
`{ key := "KEY", choice := manual, manualValue := absent }` returns
normally and silently removes `"KEY"` from the merged content — the merged
content is changed, and no invalid-usage error is signalled. -/
theorem applyResolutions_manual_absent_counterexample :
    applyResolutions
      (threeWayMergeEnvFile "test.env" (some [("KEY", "base")])
        [("KEY", "local")] [("KEY", "remote")])
      ([{ key := "KEY", choice := ResolutionChoice.manual,
          manualValue := none }] : List ConflictResolution) = [] ∧
    mapGet (threeWayMergeEnvFile "test.env" (some [("KEY", "base")])
      [("KEY", "local")] [("KEY", "remote")]).merged "KEY" = some "local" :=
  by decide

/-- C2 as amended: `applyResolutions` treats a `manual` resolution with an
absent `manualValue` as a deletion — whenever the resolution matches an
open conflict, the key is silently removed from the merged content (no
error is signalled; the function is total). -/
theorem applyResolutions_manual_absent_deletes
    (mergeResult : FileMergeResult) (res : ConflictResolution)
    (hch : res.choice = ResolutionChoice.manual)
    (hmv : res.manualValue = none)
    (hc : ∃ c ∈ mergeResult.conflicts, c.key = res.key) :
    applyResolutions mergeResult [res] =
      mapDelete mergeResult.merged res.key := by
  obtain ⟨c, hcmem, hckey⟩ := hc
  have hsome : (mergeResult.conflicts.find?
      (fun c => c.key == res.key)).isSome := by
    rw [List.find?_isSome]
    exact ⟨c, hcmem, by simp [hckey]⟩
  obtain ⟨c0, hc0⟩ := Option.isSome_iff_exists.mp hsome
  simp [applyResolutions, applyResolutionStep, hc0, hch, hmv]

/-- Witness for the amended C2: at a concrete conflicted merge, the manual
resolution with absent value deletes the key. -/
theorem applyResolutions_manual_absent_deletes_witness :
    applyResolutions
      (threeWayMergeEnvFile "w.env" (some [("K", "o")]) [("K", "l")]
        [("K", "r")])
      ([{ key := "K", choice := ResolutionChoice.manual,
          manualValue := none }] : List ConflictResolution) =
      mapDelete (threeWayMergeEnvFile "w.env" (some [("K", "o")])
        [("K", "l")] [("K", "r")]).merged "K" :=
  applyResolutions_manual_absent_deletes _
    { key := "K", choice := ResolutionChoice.manual, manualValue := none }
    rfl rfl
    ⟨{ key := "K", conflictType := ConflictType.divergent_edit,
       baseValue := some "o", localValue := some "l",
       remoteValue := some "r" }, by decide, rfl⟩

/-! ## applyResolutions is non-destructive (C10) -/

/-- Helper for C10: the state-threaded fold never changes the
`FileMergeResult` component, and its map component computes the pure
`applyResolutions` fold. -/
theorem applyResolutionsMut_foldl (resolutions : List ConflictResolution)
    (R : FileMergeResult) (m : EnvMap) :
    resolutions.foldl
      (fun st resolution => (applyResolutionStep st.2 st.1 resolution, st.2))
      (m, R) =
      (resolutions.foldl (applyResolutionStep R) m, R) := by
  induction resolutions generalizing m with
  | nil => rfl
  | cons res rest ih => simp [List.foldl_cons, ih]

/-- C10: `applyResolutions` is non-destructive on its input. In the
state-threaded embedding, the call returns the input `FileMergeResult`
object unchanged — so its `merged` map, `conflicts` list, and `autoMerged`
list are structurally equal to their values before the call — and the map
it returns is the separately built one that the pure `applyResolutions`
computes from a copy of `merged`. -/
theorem applyResolutions_nondestructive (mergeResult : FileMergeResult)
    (resolutions : List ConflictResolution) :
    (applyResolutionsMut mergeResult resolutions).2 = mergeResult ∧
    (applyResolutionsMut mergeResult resolutions).2.merged =
      mergeResult.merged ∧
    (applyResolutionsMut mergeResult resolutions).2.conflicts =
      mergeResult.conflicts ∧
    (applyResolutionsMut mergeResult resolutions).2.autoMerged =
      mergeResult.autoMerged ∧
    (applyResolutionsMut mergeResult resolutions).1 =
      applyResolutions mergeResult resolutions := by
  unfold applyResolutionsMut applyResolutions
  rw [applyResolutionsMut_foldl]
  exact ⟨rfl, rfl, rfl, rfl, rfl⟩

/-! ## Map operation lemmas -/

/-- `mapGet` on a cons. -/
theorem mapGet_cons (p : String × String) (m : EnvMap) (q : String) :
    mapGet (p :: m) q = if p.1 = q then some p.2 else mapGet m q := by
  by_cases hp : p.1 = q <;> simp [mapGet, List.find?_cons, hp]

/-- `mapGet` on an append. -/
theorem mapGet_append (m1 m2 : EnvMap) (q : String) :
    mapGet (m1 ++ m2) q = (mapGet m1 q).or (mapGet m2 q) := by
  simp only [mapGet, List.find?_append]
  cases List.find? (fun p => p.1 == q) m1 <;> simp [Option.or]

/-- `mapHas` is definedness of `mapGet`. -/
theorem mapHas_eq_isSome (m : EnvMap) (k : String) :
    mapHas m k = (mapGet m k).isSome := by
  simp [mapHas, mapGet]

/-- Overwriting key `k` in place does not affect lookups of other keys. -/
theorem mapGet_replace_ne (m : EnvMap) (k v q : String) (h : q ≠ k) :
    mapGet (m.map (fun p => if p.1 == k then (k, v) else p)) q =
      mapGet m q := by
  induction m with
  | nil => rfl
  | cons p rest ih =>
    by_cases hp : p.1 = k <;>
      simp_all [List.map_cons, mapGet_cons, Ne.symm h]

/-- Overwriting a present key `k` in place makes lookups of `k` see the
new value. -/
theorem mapGet_replace_self (m : EnvMap) (k v : String)
    (h : mapHas m k = true) :
    mapGet (m.map (fun p => if p.1 == k then (k, v) else p)) k = some v := by
  induction m with
  | nil => simp [mapHas, List.find?] at h
  | cons p rest ih =>
    by_cases hp : p.1 = k
    · simp [List.map_cons, hp, mapGet_cons]
    · rw [List.map_cons, if_neg (by simp [hp]), mapGet_cons, if_neg hp]
      exact ih (by simpa [mapHas, List.find?_cons, hp] using h)

/-- `Map.set` semantics seen through `mapGet`. -/
theorem mapGet_mapSet (m : EnvMap) (k v q : String) :
    mapGet (mapSet m k v) q = if q = k then some v else mapGet m q := by
  unfold mapSet
  by_cases hhas : mapHas m k = true
  · by_cases hq : q = k
    · subst hq
      simp only [hhas, if_true, if_pos rfl]
      exact mapGet_replace_self m q v hhas
    · simp only [hhas, if_true, if_neg hq]
      exact mapGet_replace_ne m k v q hq
  · have hnone : mapGet m k = none := by
      cases hg : mapGet m k with
      | none => rfl
      | some w =>
        exact absurd (by simp [mapHas_eq_isSome, hg]) hhas
    rw [if_neg hhas]
    by_cases hq : q = k
    · subst hq; simp [mapGet_append, hnone, mapGet_cons]
    · rw [mapGet_append]
      have h2 : mapGet [(k, v)] q = none := by
        have hkq : (k == q) = false := by
          simp only [beq_eq_false_iff_ne]
          exact fun hx => hq hx.symm
        simp [mapGet, List.find?, hkq]
      rw [h2, Option.or_none, if_neg hq]

/-- `Map.delete` semantics seen through `mapGet`. -/
theorem mapGet_mapDelete (m : EnvMap) (k q : String) :
    mapGet (mapDelete m k) q = if q = k then none else mapGet m q := by
  induction m with
  | nil => by_cases hq : q = k <;> simp [mapDelete, mapGet, List.find?, hq]
  | cons p rest ih =>
    simp only [mapDelete] at ih ⊢
    rw [List.filter_cons]
    by_cases hp : p.1 = k
    · rw [if_neg (by simp [hp]), ih, mapGet_cons]
      by_cases hq : q = k
      · rw [if_pos hq, if_pos hq]
      · rw [if_neg hq, if_neg hq,
          if_neg (fun hpq : p.1 = q => hq (by rw [← hpq]; exact hp))]
    · rw [if_pos (by simp [hp]), mapGet_cons, mapGet_cons, ih]
      by_cases hpq : p.1 = q
      · rw [if_pos hpq, if_pos hpq,
          if_neg (fun hqk : q = k => hp (by rw [hpq, hqk]))]
      · rw [if_neg hpq, if_neg hpq]

/-! ## Driver fold characterization -/

/-- One driver step appends exactly the conflict entry of its key. -/
theorem mergeStep_conflicts (base : Option EnvMap)
    (localMap remoteMap : EnvMap)
    (acc : EnvMap × List ConflictEntry × List AutoMergeEntry) (k : String) :
    (mergeStep base localMap remoteMap acc k).2.1 =
      acc.2.1 ++ (conflictEntryAt base localMap remoteMap k).toList := by
  unfold mergeStep conflictEntryAt keyOutcome
  cases h : mergeKey k (base.bind (fun m => mapGet m k)) (mapGet localMap k)
      (mapGet remoteMap k) <;>
    simp [h]

/-- One driver step appends exactly the auto-merge entry of its key. -/
theorem mergeStep_autoMerged (base : Option EnvMap)
    (localMap remoteMap : EnvMap)
    (acc : EnvMap × List ConflictEntry × List AutoMergeEntry) (k : String) :
    (mergeStep base localMap remoteMap acc k).2.2 =
      acc.2.2 ++ (autoEntryAt base localMap remoteMap k).toList := by
  unfold mergeStep autoEntryAt keyOutcome
  cases h : mergeKey k (base.bind (fun m => mapGet m k)) (mapGet localMap k)
      (mapGet remoteMap k) <;>
    simp [h]

/-- One driver step changes the merged map only at its own key, where it
writes `writtenValueAt` (or leaves the map alone when that is `none`). -/
theorem mergeStep_get (base : Option EnvMap) (localMap remoteMap : EnvMap)
    (acc : EnvMap × List ConflictEntry × List AutoMergeEntry)
    (k q : String) :
    mapGet (mergeStep base localMap remoteMap acc k).1 q =
      if q = k then
        (writtenValueAt base localMap remoteMap k).or (mapGet acc.1 q)
      else mapGet acc.1 q := by
  unfold mergeStep writtenValueAt keyOutcome
  cases h : mergeKey k (base.bind (fun m => mapGet m k)) (mapGet localMap k)
      (mapGet remoteMap k) with
  | conflict ct =>
      simp only [h]
      cases hl : mapGet localMap k with
      | none => by_cases hq : q = k <;> simp [hq, Option.or]
      | some v => by_cases hq : q = k <;> simp [hq, mapGet_mapSet, Option.or]
  | auto_merged a v =>
      simp only [h]
      cases v with
      | none => by_cases hq : q = k <;> simp [hq, Option.or]
      | some w => by_cases hq : q = k <;> simp [hq, mapGet_mapSet, Option.or]
  | unchanged v =>
      simp only [h]
      cases v with
      | none => by_cases hq : q = k <;> simp [hq, Option.or]
      | some w => by_cases hq : q = k <;> simp [hq, mapGet_mapSet, Option.or]

/-- The driver fold accumulates one conflict entry per conflicted key. -/
theorem foldl_mergeStep_conflicts (base : Option EnvMap)
    (localMap remoteMap : EnvMap) (ks : List String)
    (acc : EnvMap × List ConflictEntry × List AutoMergeEntry) :
    (ks.foldl (mergeStep base localMap remoteMap) acc).2.1 =
      acc.2.1 ++ ks.filterMap (conflictEntryAt base localMap remoteMap) := by
  induction ks generalizing acc with
  | nil => simp
  | cons k rest ih =>
    rw [List.foldl_cons, ih, mergeStep_conflicts, List.filterMap_cons]
    cases conflictEntryAt base localMap remoteMap k <;> simp

/-- The driver fold accumulates one auto-merge entry per auto-merged key. -/
theorem foldl_mergeStep_autoMerged (base : Option EnvMap)
    (localMap remoteMap : EnvMap) (ks : List String)
    (acc : EnvMap × List ConflictEntry × List AutoMergeEntry) :
    (ks.foldl (mergeStep base localMap remoteMap) acc).2.2 =
      acc.2.2 ++ ks.filterMap (autoEntryAt base localMap remoteMap) := by
  induction ks generalizing acc with
  | nil => simp
  | cons k rest ih =>
    rw [List.foldl_cons, ih, mergeStep_autoMerged, List.filterMap_cons]
    cases autoEntryAt base localMap remoteMap k <;> simp

/-- Keys outside the processed list are untouched by the driver fold. -/
theorem foldl_mergeStep_get_not_mem (base : Option EnvMap)
    (localMap remoteMap : EnvMap) (ks : List String)
    (acc : EnvMap × List ConflictEntry × List AutoMergeEntry) (q : String)
    (h : q ∉ ks) :
    mapGet (ks.foldl (mergeStep base localMap remoteMap) acc).1 q =
      mapGet acc.1 q := by
  induction ks generalizing acc with
  | nil => rfl
  | cons k rest ih =>
    rw [List.foldl_cons, ih _ (fun hx => h (List.mem_cons_of_mem _ hx)),
      mergeStep_get, if_neg (fun hx : q = k => h (hx ▸ List.mem_cons_self _ _))]

/-- On a duplicate-free key list, the merged value of a processed key that
was unset before the fold is exactly `writtenValueAt`. -/
theorem foldl_mergeStep_get_mem (base : Option EnvMap)
    (localMap remoteMap : EnvMap) (ks : List String)
    (acc : EnvMap × List ConflictEntry × List AutoMergeEntry) (q : String)
    (hmem : q ∈ ks) (hnd : ks.Nodup) (hacc : mapGet acc.1 q = none) :
    mapGet (ks.foldl (mergeStep base localMap remoteMap) acc).1 q =
      writtenValueAt base localMap remoteMap q := by
  induction ks generalizing acc with
  | nil => cases hmem
  | cons k rest ih =>
    rw [List.foldl_cons]
    by_cases hq : q = k
    · subst hq
      have hnotin : q ∉ rest := (List.nodup_cons.mp hnd).1
      rw [foldl_mergeStep_get_not_mem _ _ _ _ _ _ hnotin, mergeStep_get,
        if_pos rfl, hacc, Option.or_none]
    · have hqrest : q ∈ rest := by
        cases hmem with
        | head => exact absurd rfl hq
        | tail _ hx => exact hx
      exact ih (mergeStep base localMap remoteMap acc k) hqrest
        (List.nodup_cons.mp hnd).2
        (by rw [mergeStep_get, if_neg hq]; exact hacc)

/-! ## Key union properties -/

/-- `insertKey` membership. -/
theorem mem_insertKey (ks : List String) (k q : String) :
    q ∈ insertKey ks k ↔ q ∈ ks ∨ q = k := by
  unfold insertKey
  split_ifs with h
  · constructor
    · exact Or.inl
    · rintro (hx | rfl)
      · exact hx
      · exact h
  · simp [List.mem_append]

/-- `insertKey` preserves duplicate-freedom. -/
theorem insertKey_nodup (ks : List String) (k : String) (h : ks.Nodup) :
    (insertKey ks k).Nodup := by
  unfold insertKey
  split_ifs with hmem
  · exact h
  · simp [List.nodup_append, h, hmem]

/-- Folding `insertKey` preserves duplicate-freedom. -/
theorem foldl_insertKey_nodup (ls : List String) (acc : List String)
    (h : acc.Nodup) : (ls.foldl insertKey acc).Nodup := by
  induction ls generalizing acc with
  | nil => exact h
  | cons x rest ih => exact ih _ (insertKey_nodup acc x h)

/-- The key union is duplicate-free. -/
theorem allKeysOf_nodup (base : Option EnvMap)
    (localMap remoteMap : EnvMap) : (allKeysOf base localMap remoteMap).Nodup :=
  foldl_insertKey_nodup _ [] List.nodup_nil

/-! ## Characterization of the driver's output -/

/-- The conflicts list of `threeWayMergeEnvFile` is exactly the per-key
conflict entries of the key union. -/
theorem threeWayMerge_conflicts_eq (fileName : String) (base : Option EnvMap)
    (localMap remoteMap : EnvMap) :
    (threeWayMergeEnvFile fileName base localMap remoteMap).conflicts =
      (allKeysOf base localMap remoteMap).filterMap
        (conflictEntryAt base localMap remoteMap) := by
  simp only [threeWayMergeEnvFile]
  rw [foldl_mergeStep_conflicts]
  rfl

/-- The auto-merge list of `threeWayMergeEnvFile` is exactly the per-key
auto-merge entries of the key union. -/
theorem threeWayMerge_autoMerged_eq (fileName : String)
    (base : Option EnvMap) (localMap remoteMap : EnvMap) :
    (threeWayMergeEnvFile fileName base localMap remoteMap).autoMerged =
      (allKeysOf base localMap remoteMap).filterMap
        (autoEntryAt base localMap remoteMap) := by
  simp only [threeWayMergeEnvFile]
  rw [foldl_mergeStep_autoMerged]
  rfl

/-- Fields of a recorded conflict entry: its key is the processed key and
its stored values are the three versions' values at that key. -/
theorem conflictEntryAt_fields (base : Option EnvMap)
    (localMap remoteMap : EnvMap) (k : String) (c : ConflictEntry)
    (h : conflictEntryAt base localMap remoteMap k = some c) :
    c.key = k ∧ c.localValue = mapGet localMap k ∧
    c.remoteValue = mapGet remoteMap k ∧
    c.baseValue = base.bind (fun m => mapGet m k) ∧
    isConflict (keyOutcome base localMap remoteMap k) = true := by
  unfold conflictEntryAt at h
  cases hk : keyOutcome base localMap remoteMap k <;> rw [hk] at h
  case unchanged => exact absurd h (by simp)
  case auto_merged => exact absurd h (by simp)
  case conflict ct =>
    obtain rfl := Option.some_inj.mp h
    refine ⟨rfl, rfl, rfl, rfl, ?_⟩
    simp [isConflict, hk]

/-- The keys of the conflict entries of a key list are the conflicted
subset of that list. -/
theorem filterMap_conflictEntryAt_keys (base : Option EnvMap)
    (localMap remoteMap : EnvMap) (ks : List String) :
    (ks.filterMap (conflictEntryAt base localMap remoteMap)).map (·.key) =
      ks.filter
        (fun k => (conflictEntryAt base localMap remoteMap k).isSome) := by
  induction ks with
  | nil => rfl
  | cons k rest ih =>
    rw [List.filterMap_cons, List.filter_cons]
    cases h : conflictEntryAt base localMap remoteMap k with
    | none => simp [h, ih]
    | some c =>
      have hk := (conflictEntryAt_fields base localMap remoteMap k c h).1
      simp [h, ih, hk]

/-- Distinct keys: no two conflict entries of a merge result share a key. -/
theorem threeWayMerge_conflicts_keys_nodup (fileName : String)
    (base : Option EnvMap) (localMap remoteMap : EnvMap) :
    (((threeWayMergeEnvFile fileName base localMap remoteMap).conflicts).map
      (·.key)).Nodup := by
  rw [threeWayMerge_conflicts_eq, filterMap_conflictEntryAt_keys]
  exact (allKeysOf_nodup base localMap remoteMap).filter _

/-- The merged map of the driver at a key of the union holds exactly the
written value of that key. -/
theorem threeWayMerge_merged_get (fileName : String) (base : Option EnvMap)
    (localMap remoteMap : EnvMap) (q : String)
    (h : q ∈ allKeysOf base localMap remoteMap) :
    mapGet (threeWayMergeEnvFile fileName base localMap remoteMap).merged q =
      writtenValueAt base localMap remoteMap q := by
  unfold threeWayMergeEnvFile
  exact foldl_mergeStep_get_mem base localMap remoteMap _ _ q h
    (allKeysOf_nodup base localMap remoteMap) rfl

/-- On a conflicted key the driver writes the local value (the
prefer-local preview). -/
theorem writtenValueAt_of_conflict (base : Option EnvMap)
    (localMap remoteMap : EnvMap) (k : String)
    (h : isConflict (keyOutcome base localMap remoteMap k) = true) :
    writtenValueAt base localMap remoteMap k = mapGet localMap k := by
  unfold writtenValueAt
  unfold isConflict at h
  cases hk : keyOutcome base localMap remoteMap k <;> rw [hk] at h <;>
    simp_all

/-! ## Resolution application lemmas -/

/-- A resolution step leaves every key other than its own untouched, and a
`skip` resolution touches nothing. -/
theorem applyResolutionStep_get_preserve (R : FileMergeResult) (m : EnvMap)
    (res : ConflictResolution) (q : String)
    (h : res.key ≠ q ∨ res.choice = ResolutionChoice.skip) :
    mapGet (applyResolutionStep R m res) q = mapGet m q := by
  unfold applyResolutionStep
  cases hf : R.conflicts.find? (fun c => c.key == res.key) with
  | none => rfl
  | some conflict =>
    rcases h with h | h
    · cases hch : res.choice
      case skip => rfl
      case pickLocal =>
        cases hv : conflict.localValue <;>
          simp [hv, mapGet_mapSet, mapGet_mapDelete, Ne.symm h]
      case pickRemote =>
        cases hv : conflict.remoteValue <;>
          simp [hv, mapGet_mapSet, mapGet_mapDelete, Ne.symm h]
      case pickBase =>
        cases hv : conflict.baseValue <;>
          simp [hv, mapGet_mapSet, mapGet_mapDelete, Ne.symm h]
      case manual =>
        cases hv : res.manualValue <;>
          simp [hv, mapGet_mapSet, mapGet_mapDelete, Ne.symm h]
    · rw [h]

/-- Folding resolutions that each miss `q` (or are `skip`) preserves the
value at `q`. -/
theorem foldl_applyResolutionStep_get_preserve (R : FileMergeResult)
    (rs : List ConflictResolution) (m : EnvMap) (q : String)
    (h : ∀ res ∈ rs, res.key ≠ q ∨ res.choice = ResolutionChoice.skip) :
    mapGet (rs.foldl (applyResolutionStep R) m) q = mapGet m q := by
  induction rs generalizing m with
  | nil => rfl
  | cons res rest ih =>
    rw [List.foldl_cons,
      ih _ (fun x hx => h x (List.mem_cons_of_mem _ hx)),
      applyResolutionStep_get_preserve R m res q
        (h res (List.mem_cons_self _ _))]

/-- `find?` over a split list whose prefix all fails the predicate finds
the head of the suffix when it matches. -/
theorem find?_append_cons_self {α : Type} (p : α → Bool) (s t : List α)
    (c : α) (hs : ∀ x ∈ s, p x = false) (hc : p c = true) :
    (s ++ c :: t).find? p = some c := by
  rw [List.find?_append]
  have hnone : s.find? p = none :=
    List.find?_eq_none.mpr (fun x hx => by simp [hs x hx])
  rw [hnone, List.find?_cons, hc]
  rfl

/-- When the lookup of a resolution's key finds conflict `c`, the value at
that key after the step is the one the resolution's choice selects. -/
theorem applyResolutionStep_get_self (R : FileMergeResult) (m : EnvMap)
    (res : ConflictResolution) (c : ConflictEntry)
    (hf : R.conflicts.find? (fun x => x.key == res.key) = some c) :
    mapGet (applyResolutionStep R m res) res.key =
      match res.choice with
      | ResolutionChoice.pickLocal => c.localValue
      | ResolutionChoice.pickRemote => c.remoteValue
      | ResolutionChoice.pickBase => c.baseValue
      | ResolutionChoice.manual => res.manualValue
      | ResolutionChoice.skip => mapGet m res.key := by
  unfold applyResolutionStep
  rw [hf]
  cases res.choice
  case pickLocal =>
    cases hv : c.localValue <;> simp [hv, mapGet_mapSet, mapGet_mapDelete]
  case pickRemote =>
    cases hv : c.remoteValue <;> simp [hv, mapGet_mapSet, mapGet_mapDelete]
  case pickBase =>
    cases hv : c.baseValue <;> simp [hv, mapGet_mapSet, mapGet_mapDelete]
  case manual =>
    cases hv : res.manualValue <;> simp [hv, mapGet_mapSet, mapGet_mapDelete]
  case skip => rfl

/-- Core of batch resolution: on a merge result whose conflict keys are
pairwise distinct, applying one uniform resolution per conflict (fixed
choice `ch`, fixed manual value `mv`) sets every conflicted key to the
value that choice selects (deleting it when that value is absent). -/
theorem applyResolutions_uniform_get (R : FileMergeResult)
    (hnd : (R.conflicts.map (·.key)).Nodup) (c : ConflictEntry)
    (hc : c ∈ R.conflicts) (ch : ResolutionChoice) (mv : Option String) :
    mapGet (applyResolutions R (R.conflicts.map (fun conflict =>
        ({ key := conflict.key, choice := ch, manualValue := mv } :
          ConflictResolution)))) c.key =
      match ch with
      | ResolutionChoice.pickLocal => c.localValue
      | ResolutionChoice.pickRemote => c.remoteValue
      | ResolutionChoice.pickBase => c.baseValue
      | ResolutionChoice.manual => mv
      | ResolutionChoice.skip => mapGet R.merged c.key := by
  obtain ⟨s, t, hsplit⟩ := List.append_of_mem hc
  have hskeys : ∀ x ∈ s, x.key ≠ c.key := by
    intro x hx hxy
    rw [hsplit, List.map_append, List.nodup_append] at hnd
    have hmem1 : c.key ∈ s.map (fun x => x.key) := by
      rw [← hxy]
      exact List.mem_map_of_mem _ hx
    exact hnd.2.2 hmem1 (by simp)
  have htkeys : ∀ x ∈ t, x.key ≠ c.key := by
    intro x hx hxy
    rw [hsplit, List.map_append, List.nodup_append] at hnd
    have := hnd.2.1
    rw [List.map_cons, List.nodup_cons] at this
    exact this.1 (hxy ▸ List.mem_map_of_mem _ hx)
  have hfind : R.conflicts.find? (fun x => x.key == c.key) = some c := by
    rw [hsplit]
    exact find?_append_cons_self _ s t c
      (fun x hx => by simp [hskeys x hx]) (by simp)
  have hres : R.conflicts.map (fun conflict =>
      ({ key := conflict.key, choice := ch, manualValue := mv } :
        ConflictResolution)) =
      s.map (fun conflict =>
        ({ key := conflict.key, choice := ch, manualValue := mv } :
          ConflictResolution)) ++
      ({ key := c.key, choice := ch, manualValue := mv } :
        ConflictResolution) ::
      t.map (fun conflict =>
        ({ key := conflict.key, choice := ch, manualValue := mv } :
          ConflictResolution)) := by
    rw [hsplit, List.map_append, List.map_cons]
  unfold applyResolutions
  rw [hres, List.foldl_append, List.foldl_cons]
  rw [foldl_applyResolutionStep_get_preserve R _ _ c.key
    (by
      intro res hres2
      obtain ⟨x, hx, rfl⟩ := List.mem_map.mp hres2
      exact Or.inl (htkeys x hx))]
  have hstep := applyResolutionStep_get_self R
    ((s.map (fun conflict =>
        ({ key := conflict.key, choice := ch, manualValue := mv } :
          ConflictResolution))).foldl (applyResolutionStep R) R.merged)
    ({ key := c.key, choice := ch, manualValue := mv } : ConflictResolution)
    c hfind
  cases ch
  case pickLocal => simpa using hstep
  case pickRemote => simpa using hstep
  case pickBase => simpa using hstep
  case manual => simpa using hstep
  case skip =>
    rw [hstep]
    exact foldl_applyResolutionStep_get_preserve R _ _ c.key
      (fun res hres2 => Or.inr
        (by obtain ⟨x, hx, rfl⟩ := List.mem_map.mp hres2; rfl))

/-- C3: batch resolution correctness. For every merge result of
`threeWayMergeEnvFile` and every previously conflicted key, applying
`applyResolutions` to `resolveAllConflicts(result, local)` yields exactly
the local value when local has one and no entry when local deleted the key
(`mapGet localMap c.key`, which is `none` exactly on deletion) — and
symmetrically for the `remote` strategy. -/
theorem batch_resolution_correct (fileName : String) (base : Option EnvMap)
    (localMap remoteMap : EnvMap) (c : ConflictEntry)
    (hc : c ∈
      (threeWayMergeEnvFile fileName base localMap remoteMap).conflicts) :
    mapGet (applyResolutions
        (threeWayMergeEnvFile fileName base localMap remoteMap)
        (resolveAllConflicts
          (threeWayMergeEnvFile fileName base localMap remoteMap)
          Strategy.stratLocal)) c.key = mapGet localMap c.key ∧
    mapGet (applyResolutions
        (threeWayMergeEnvFile fileName base localMap remoteMap)
        (resolveAllConflicts
          (threeWayMergeEnvFile fileName base localMap remoteMap)
          Strategy.stratRemote)) c.key = mapGet remoteMap c.key := by
  have hnd :=
    threeWayMerge_conflicts_keys_nodup fileName base localMap remoteMap
  have h1 := applyResolutions_uniform_get _ hnd c hc
    ResolutionChoice.pickLocal none
  have h2 := applyResolutions_uniform_get _ hnd c hc
    ResolutionChoice.pickRemote none
  have hc2 := hc
  rw [threeWayMerge_conflicts_eq] at hc2
  obtain ⟨k, hk, hsome⟩ := List.mem_filterMap.mp hc2
  obtain ⟨hkey, hlocal, hremote, hbase, hconf⟩ :=
    conflictEntryAt_fields _ _ _ _ _ hsome
  rw [← hkey] at hlocal hremote
  exact ⟨h1.trans hlocal, h2.trans hremote⟩

/-- Witness for C3: a divergent edit on `"K"`; resolving with the local
(resp. remote) strategy yields the local (resp. remote) value. -/
theorem batch_resolution_correct_witness :
    ({ key := "K", conflictType := ConflictType.divergent_edit,
       baseValue := some "o", localValue := some "l",
       remoteValue := some "r" } : ConflictEntry) ∈
      (threeWayMergeEnvFile "w" (some [("K", "o")]) [("K", "l")]
        [("K", "r")]).conflicts ∧
    (mapGet (applyResolutions
        (threeWayMergeEnvFile "w" (some [("K", "o")]) [("K", "l")]
          [("K", "r")])
        (resolveAllConflicts
          (threeWayMergeEnvFile "w" (some [("K", "o")]) [("K", "l")]
            [("K", "r")])
          Strategy.stratLocal)) "K" = some "l" ∧
     mapGet (applyResolutions
        (threeWayMergeEnvFile "w" (some [("K", "o")]) [("K", "l")]
          [("K", "r")])
        (resolveAllConflicts
          (threeWayMergeEnvFile "w" (some [("K", "o")]) [("K", "l")]
            [("K", "r")])
          Strategy.stratRemote)) "K" = some "r") :=
  ⟨by decide,
   batch_resolution_correct "w" (some [("K", "o")]) [("K", "l")]
     [("K", "r")]
     ({ key := "K", conflictType := ConflictType.divergent_edit,
        baseValue := some "o", localValue := some "l",
        remoteValue := some "r" } : ConflictEntry) (by decide)⟩

/-- C5: for every conflicted key the merged map holds the prefer-local
preview — the local value when local has one, no entry when local is
absent (`mapGet localMap c.key`) — and `applyResolutions` leaves that
provisional value untouched whenever every resolution matching the key is
a `skip` (in particular when none matches). -/
theorem conflict_prefer_local_preview (fileName : String)
    (base : Option EnvMap) (localMap remoteMap : EnvMap)
    (c : ConflictEntry)
    (hc : c ∈
      (threeWayMergeEnvFile fileName base localMap remoteMap).conflicts)
    (rs : List ConflictResolution)
    (hrs : ∀ res ∈ rs, res.key = c.key →
      res.choice = ResolutionChoice.skip) :
    mapGet (threeWayMergeEnvFile fileName base localMap remoteMap).merged
        c.key = mapGet localMap c.key ∧
    mapGet (applyResolutions
        (threeWayMergeEnvFile fileName base localMap remoteMap) rs) c.key =
      mapGet (threeWayMergeEnvFile fileName base localMap remoteMap).merged
        c.key := by
  have hc2 := hc
  rw [threeWayMerge_conflicts_eq] at hc2
  obtain ⟨k, hk, hsome⟩ := List.mem_filterMap.mp hc2
  obtain ⟨hkey, hlocal, hremote, hbase, hconf⟩ :=
    conflictEntryAt_fields _ _ _ _ _ hsome
  constructor
  · rw [hkey, threeWayMerge_merged_get fileName base localMap remoteMap k hk,
      writtenValueAt_of_conflict base localMap remoteMap k hconf]
  · unfold applyResolutions
    exact foldl_applyResolutionStep_get_preserve _ rs _ c.key
      (fun res hres => by
        by_cases hkq : res.key = c.key
        · exact Or.inr (hrs res hres hkq)
        · exact Or.inl hkq)

/-- Witness for C5: an edit-vs-delete conflict (local deleted `"K"`), one
skip resolution for it; the merged preview has no `"K"` and stays so. -/
theorem conflict_prefer_local_preview_witness :
    ({ key := "K", conflictType := ConflictType.edit_vs_delete,
       baseValue := some "o", localValue := none,
       remoteValue := some "r" } : ConflictEntry) ∈
      (threeWayMergeEnvFile "w5" (some [("K", "o")]) []
        [("K", "r")]).conflicts ∧
    (∀ res ∈ ([{ key := "K", choice := ResolutionChoice.skip,
                 manualValue := none }] : List ConflictResolution),
      res.key = "K" → res.choice = ResolutionChoice.skip) ∧
    (mapGet (threeWayMergeEnvFile "w5" (some [("K", "o")]) []
        [("K", "r")]).merged "K" = none ∧
     mapGet (applyResolutions
        (threeWayMergeEnvFile "w5" (some [("K", "o")]) [] [("K", "r")])
        ([{ key := "K", choice := ResolutionChoice.skip,
            manualValue := none }] : List ConflictResolution)) "K" =
      mapGet (threeWayMergeEnvFile "w5" (some [("K", "o")]) []
        [("K", "r")]).merged "K") :=
  ⟨by decide, by decide,
   conflict_prefer_local_preview "w5" (some [("K", "o")]) [] [("K", "r")]
     ({ key := "K", conflictType := ConflictType.edit_vs_delete,
        baseValue := some "o", localValue := none,
        remoteValue := some "r" } : ConflictEntry) (by decide)
     ([{ key := "K", choice := ResolutionChoice.skip,
         manualValue := none }] : List ConflictResolution) (by decide)⟩

/-! ## Manifest fingerprint (C9) -/

/-- Sorting the `(name, hash)` projection by name is invariant under
permutation when names are pairwise distinct. -/
theorem sortByName_eq_of_perm (p1 p2 : List (String × String))
    (hperm : p1.Perm p2) (hnd : (p1.map Prod.fst).Nodup) :
    sortByName p1 = sortByName p2 := by
  unfold sortByName
  haveI htot : IsTotal (String × String) (fun a b => a.1 ≤ b.1) :=
    ⟨fun a b => le_total a.1 b.1⟩
  haveI htr : IsTrans (String × String) (fun a b => a.1 ≤ b.1) :=
    ⟨fun a b c h1 h2 => le_trans h1 h2⟩
  have hs1 : List.Sorted (fun a b : String × String => a.1 ≤ b.1)
      (List.insertionSort (fun a b : String × String => a.1 ≤ b.1) p1) :=
    List.sorted_insertionSort _ p1
  have hs2 : List.Sorted (fun a b : String × String => a.1 ≤ b.1)
      (List.insertionSort (fun a b : String × String => a.1 ≤ b.1) p2) :=
    List.sorted_insertionSort _ p2
  have hps1 : (List.insertionSort (fun a b : String × String => a.1 ≤ b.1)
      p1).Perm p1 := List.perm_insertionSort _ p1
  have hps2 : (List.insertionSort (fun a b : String × String => a.1 ≤ b.1)
      p2).Perm p2 := List.perm_insertionSort _ p2
  have hp := hps1.trans (hperm.trans hps2.symm)
  have hnd1 := (hps1.map Prod.fst).symm.nodup hnd
  have hnd2 := (hp.map Prod.fst).nodup hnd1
  have hstrict : ∀ l : List (String × String),
      List.Sorted (fun a b : String × String => a.1 ≤ b.1) l →
      (l.map Prod.fst).Nodup →
      List.Sorted (fun a b : String × String => a.1 < b.1) l := by
    intro l hsort hnodup
    rw [List.Nodup, List.pairwise_map] at hnodup
    exact (hsort.and hnodup).imp (fun h => lt_of_le_of_ne h.1 h.2)
  haveI hanti : IsAntisymm (String × String) (fun a b => a.1 < b.1) :=
    ⟨fun a b h1 h2 => absurd h2 (lt_asymm h1)⟩
  exact List.eq_of_perm_of_sorted hp
    (hstrict _ hs1 hnd1) (hstrict _ hs2 hnd2)

/-- C9: for manifests with pairwise-distinct file names,
`getManifestFingerprint` depends only on the version, the project name,
and the set of `(name, hash)` pairs of the files — it is invariant under
any permutation of the files array and ignores the other per-file
fields. -/
theorem getManifestFingerprint_perm_invariant (m1 m2 : ProjectManifest)
    (hv : m1.version = m2.version) (hn : m1.projectName = m2.projectName)
    (hperm : (m1.files.map (fun f => (f.name, f.hash))).Perm
      (m2.files.map (fun f => (f.name, f.hash))))
    (hnd : (m1.files.map (·.name)).Nodup) :
    getManifestFingerprint m1 = getManifestFingerprint m2 := by
  unfold getManifestFingerprint
  have hnd' : ((m1.files.map (fun f => (f.name, f.hash))).map
      Prod.fst).Nodup := by
    rw [List.map_map]
    exact hnd
  rw [hv, hn, sortByName_eq_of_perm _ _ hperm hnd']

/-- Witness for C9: same version, project name and `(name, hash)` pairs,
but different file order, sizes and timestamps — equal fingerprints. -/
theorem getManifestFingerprint_perm_invariant_witness :
    ({ version := 1, projectName := "proj",
       files := [{ name := "b", hash := "h2", size := 5,
                   updatedAt := "t1" },
                 { name := "a", hash := "h1", size := 3,
                   updatedAt := "t2" }] } : ProjectManifest).version =
      ({ version := 1, projectName := "proj",
         files := [{ name := "a", hash := "h1", size := 99,
                     updatedAt := "x" },
                   { name := "b", hash := "h2", size := 0,
                     updatedAt := "y" }] } : ProjectManifest).version ∧
    getManifestFingerprint
      ({ version := 1, projectName := "proj",
         files := [{ name := "b", hash := "h2", size := 5,
                     updatedAt := "t1" },
                   { name := "a", hash := "h1", size := 3,
                     updatedAt := "t2" }] } : ProjectManifest) =
    getManifestFingerprint
      ({ version := 1, projectName := "proj",
         files := [{ name := "a", hash := "h1", size := 99,
                     updatedAt := "x" },
                   { name := "b", hash := "h2", size := 0,
                     updatedAt := "y" }] } : ProjectManifest) :=
  ⟨rfl,
   getManifestFingerprint_perm_invariant _ _ rfl rfl (by decide) (by decide)⟩

end SettingsSync
